import Mathlib

/-!
Verification development for the ratmath oracle core.

Real numbers are named by oracles: callables that, given a rational query
interval `ab` and a fuzziness tolerance `delta`, answer Yes / No / Maybe while
maintaining a best-known containing interval `yes`.  The definitions below are
shallow embeddings of the oracle protocol, the factories, the narrowing engine,
the arithmetic composition layer and the root-finding oracles of the source.
Numeric answers follow the source encoding: `1` Yes, `0` No, `-1` Maybe.

The rational / interval primitive layer (the external ratmath collaborator) is
modelled by `RatInterval` over `Rat` with the interval operations the spec
requires of it: inclusive endpoints, intersection (absent when empty),
containment, width, halo expansion.
-/

-- The Batteries rational operations are marked irreducible, which blocks the
-- elaboration-time evaluation used by the decide tactic on concrete rational
-- inputs; making them semireducible locally restores evaluation (the kernel
-- checks such proofs by ordinary unfolding either way).
attribute [local semireducible] Rat.mul Rat.inv Rat.add Rat.sub Rat.ofScientific

namespace RatOracles

/-- A closed rational interval with inclusive endpoints, as provided by the
external ratmath library (spec section 3). -/
structure RatInterval where
  low : Rat
  high : Rat
deriving DecidableEq, Repr

/-- Interval width `high - low`. -/
def widthI (i : RatInterval) : Rat := i.high - i.low

/-- Well-formedness of an interval: ordered endpoints (spec section 3, the
RationalInterval constructor normalizes endpoint order). -/
def orderedIv (i : RatInterval) : Prop := i.low ≤ i.high

/-- `a` is a sub-interval of `b`. -/
def subsetIv (a b : RatInterval) : Prop := b.low ≤ a.low ∧ a.high ≤ b.high

/-- Interval intersection: `some` of the overlap, `none` when disjoint
(the ratmath `intersection` collaborator). -/
def intersection (a b : RatInterval) : Option RatInterval :=
  if max a.low b.low ≤ min a.high b.high then
    some ⟨max a.low b.low, min a.high b.high⟩
  else none

/-- Interval containment: `a.contains(b)` in the source. -/
def containsIv (a b : RatInterval) : Bool :=
  decide (a.low ≤ b.low ∧ b.high ≤ a.high)

/-- Point membership: `i.containsValue(q)` in the source. -/
def containsValue (i : RatInterval) (q : Rat) : Bool :=
  decide (i.low ≤ q ∧ q ≤ i.high)

/-- `halo(interval, delta)`: the interval expanded by `delta` on both sides
(helpers.ts lines 19-21). -/
def halo (i : RatInterval) (delta : Rat) : RatInterval :=
  ⟨i.low - delta, i.high + delta⟩

/-- A single oracle answer: the numeric verdict (`1` Yes, `0` No, `-1` Maybe)
together with the optional prophecy interval.  This is the `[[ans, interval?],
extra]` shape of the source with the protocol-irrelevant `extra` payload
dropped. -/
structure Answer where
  ans : Int
  prophecy : Option RatInterval
deriving DecidableEq, Repr

/-- The singleton interval `q:q`. -/
def pointIv (q : Rat) : RatInterval := ⟨q, q⟩

-- Basic facts about the interval primitives, shared by the claim proofs.

theorem intersection_eq_none_iff (a b : RatInterval) :
    intersection a b = none ↔ ¬ (max a.low b.low ≤ min a.high b.high) := by
  unfold intersection
  split <;> simp_all

theorem intersection_eq_some (a b : RatInterval)
    (h : max a.low b.low ≤ min a.high b.high) :
    intersection a b = some ⟨max a.low b.low, min a.high b.high⟩ := by
  unfold intersection
  simp [h]

theorem containsIv_true_iff (a b : RatInterval) :
    containsIv a b = true ↔ (a.low ≤ b.low ∧ b.high ≤ a.high) := by
  simp [containsIv]

theorem containsValue_true_iff (i : RatInterval) (q : Rat) :
    containsValue i q = true ↔ (i.low ≤ q ∧ q ≤ i.high) := by
  simp [containsValue]

theorem containsValue_false_iff (i : RatInterval) (q : Rat) :
    containsValue i q = false ↔ ¬ (i.low ≤ q ∧ q ≤ i.high) := by
  simp [containsValue]

theorem mem_halo_of_mem {ab : RatInterval} {s delta : Rat}
    (h : containsValue ab s = true) (hd : 0 ≤ delta) :
    containsValue (halo ab delta) s = true := by
  rw [containsValue_true_iff] at h ⊢
  unfold halo
  dsimp only
  exact ⟨by linarith [h.1], by linarith [h.2]⟩

theorem intersection_point_right (i : RatInterval) (s : Rat) :
    intersection i (pointIv s) =
      if containsValue i s then some (pointIv s) else none := by
  unfold intersection pointIv containsValue
  rcases le_or_lt i.low s with h1 | h1
  · rcases le_or_lt s i.high with h2 | h2
    · rw [max_eq_right h1, min_eq_right h2]
      simp [le_refl, h1, h2]
    · have : ¬ max i.low s ≤ min i.high s := by
        rw [max_eq_right h1]
        intro hc
        exact absurd (le_trans hc (min_le_left _ _)) (not_le.mpr h2)
      simp only [this, if_false]
      have : ¬ (i.low ≤ s ∧ s ≤ i.high) := fun hc => absurd hc.2 (not_le.mpr h2)
      simp [this]
  · have : ¬ max i.low s ≤ min i.high s := by
      intro hc
      have h3 : i.low ≤ min i.high s := le_trans (le_max_left _ _) hc
      exact absurd (le_trans h3 (min_le_right _ _)) (not_le.mpr h1)
    simp only [this, if_false]
    have : ¬ (i.low ≤ s ∧ s ≤ i.high) := fun hc => absurd hc.1 (not_le.mpr h1)
    simp [this]

theorem intersection_point_left (i : RatInterval) (s : Rat) :
    intersection (pointIv s) i =
      if containsValue i s then some (pointIv s) else none := by
  unfold intersection pointIv containsValue
  rcases le_or_lt i.low s with h1 | h1
  · rcases le_or_lt s i.high with h2 | h2
    · rw [max_eq_left h1, min_eq_left h2]
      simp [le_refl, h1, h2]
    · have : ¬ max s i.low ≤ min s i.high := by
        rw [max_eq_left h1]
        intro hc
        exact absurd (le_trans hc (min_le_right _ _)) (not_le.mpr h2)
      simp only [this, if_false]
      have : ¬ (i.low ≤ s ∧ s ≤ i.high) := fun hc => absurd hc.2 (not_le.mpr h2)
      simp [this]
  · have : ¬ max s i.low ≤ min s i.high := by
      intro hc
      have h3 : i.low ≤ min s i.high := le_trans (le_max_right _ _) hc
      exact absurd (le_trans h3 (min_le_left _ _)) (not_le.mpr h1)
    simp only [this, if_false]
    have : ¬ (i.low ≤ s ∧ s ≤ i.high) := fun hc => absurd hc.1 (not_le.mpr h1)
    simp [this]

/-! ### Root oracles (roots.ts) -/

/-- `getInterval` of nRoot (roots.ts lines 15-19): the interval spanning the
current guess and partner. -/
def nRootInterval (g p : Rat) : RatInterval :=
  if g < p then ⟨g, p⟩ else ⟨p, g⟩

/-- Initial nRoot state (roots.ts lines 11-13): the guess together with the
partner `q / guess^(n-1)`. -/
def nRootInit (q g : Rat) (n : Nat) : Rat × Rat := (g, q / g ^ (n - 1))

/-- The invocation contract of nRoot (roots.ts lines 23-38): disjoint from the
current yes interval gives No; yes contained in the halo gives Yes; any other
overlap also answers No, carrying the current yes interval as prophecy. -/
def nRootAnswer (ab : RatInterval) (delta : Rat) (currentYes : RatInterval) :
    Answer :=
  match intersection ab currentYes with
  | none => ⟨0, some currentYes⟩
  | some _ =>
    if containsIv (halo ab delta) currentYes then ⟨1, some currentYes⟩
    else ⟨0, some currentYes⟩

/-- The invocation contract of KantorovichRoot (roots.ts lines 162-171): the
same decision structure as nRoot (without the guess or partner payload). -/
def kantorovichAnswer (ab : RatInterval) (delta : Rat)
    (currentYes : RatInterval) : Answer :=
  match intersection ab currentYes with
  | none => ⟨0, some currentYes⟩
  | some _ =>
    if containsIv (halo ab delta) currentYes then ⟨1, some currentYes⟩
    else ⟨0, some currentYes⟩

/-- Claim C1, counterexample.  The oracle `nRoot(2, 3/2, 2)` starts with yes
interval `[4/3, 3/2]`.  The query `[1, 7/5]` at delta `0` intersects that yes
interval but its halo does not contain it, so the source answers No with
prophecy `[4/3, 3/2]` - a prophecy that is not disjoint from the query.  This
refutes the claim that a No prophecy is always disjoint from the query
interval. -/
theorem nRoot_no_prophecy_not_disjoint :
    (nRootAnswer ⟨1, 7/5⟩ 0
        (nRootInterval (nRootInit 2 (3/2) 2).1 (nRootInit 2 (3/2) 2).2)).ans
        = 0 ∧
    (nRootAnswer ⟨1, 7/5⟩ 0
        (nRootInterval (nRootInit 2 (3/2) 2).1 (nRootInit 2 (3/2) 2).2)).prophecy
        = some ⟨4/3, 3/2⟩ ∧
    intersection ⟨4/3, 3/2⟩ ⟨1, 7/5⟩ ≠ none := by
  decide

/-- Claim C1, amended: whenever nRoot or KantorovichRoot answers No, either the
query is disjoint from the current yes interval (so the prophecy is disjoint
from the query) or the halo of the query fails to contain the yes interval; in
particular, a query interval that contains the current yes interval (with
nonnegative delta) is always answered Yes, never No.  A No prophecy may,
however, intersect a query that only partially overlaps the yes interval. -/
theorem nRoot_kantorovich_no_answers (ab yes : RatInterval) (delta : Rat)
    (hy : orderedIv yes) (hd : 0 ≤ delta) :
    (containsIv ab yes = true →
      (nRootAnswer ab delta yes).ans = 1 ∧
      (kantorovichAnswer ab delta yes).ans = 1) ∧
    ((nRootAnswer ab delta yes).ans = 0 →
      intersection ab yes = none ∨ containsIv (halo ab delta) yes = false) ∧
    ((kantorovichAnswer ab delta yes).ans = 0 →
      intersection ab yes = none ∨ containsIv (halo ab delta) yes = false) := by
  refine ⟨?_, ?_, ?_⟩
  · intro hab
    rw [containsIv_true_iff] at hab
    have hinter : max ab.low yes.low ≤ min ab.high yes.high := by
      rw [max_eq_right hab.1, min_eq_right hab.2]
      exact hy
    have hsome := intersection_eq_some ab yes hinter
    have hhalo : containsIv (halo ab delta) yes = true := by
      rw [containsIv_true_iff]
      unfold halo
      dsimp only
      exact ⟨by linarith [hab.1], by linarith [hab.2]⟩
    constructor
    · unfold nRootAnswer
      rw [hsome]
      simp [hhalo]
    · unfold kantorovichAnswer
      rw [hsome]
      simp [hhalo]
  · intro h0
    unfold nRootAnswer at h0
    rcases hi : intersection ab yes with _ | j
    · exact Or.inl rfl
    · rw [hi] at h0
      by_cases hh : containsIv (halo ab delta) yes = true
      · simp [hh] at h0
      · exact Or.inr (by simpa using hh)
  · intro h0
    unfold kantorovichAnswer at h0
    rcases hi : intersection ab yes with _ | j
    · exact Or.inl rfl
    · rw [hi] at h0
      by_cases hh : containsIv (halo ab delta) yes = true
      · simp [hh] at h0
      · exact Or.inr (by simpa using hh)

/-- Claim C1 amended, witness: the query `[1, 2]` contains the yes interval
`[4/3, 3/2]`, and both answers are Yes. -/
theorem nRoot_kantorovich_no_answers_witness :
    (nRootAnswer ⟨1, 2⟩ 0 ⟨4/3, 3/2⟩).ans = 1 ∧
    (kantorovichAnswer ⟨1, 2⟩ 0 ⟨4/3, 3/2⟩).ans = 1 :=
  (nRoot_kantorovich_no_answers ⟨1, 2⟩ ⟨4/3, 3/2⟩ 0
    (by norm_num [orderedIv]) (le_refl 0)).1 (by decide)

/-! ### Arithmetic composition (part_007, refined revision) -/

/-- `containsZero` from the ops collaborator: the interval contains the value
zero. -/
def containsZero (i : RatInterval) : Bool := decide (i.low ≤ 0 ∧ 0 ≤ i.high)

/-- Modelled from the spec: ops.ts is absent from the repository; section 4.5
describes the operand magnitudes entering the multiply and divide precision
formulas as the magnitude `max(|a|,|b|)` of the current interval endpoints. -/
def getMagnitude (i : RatInterval) : Rat := max |i.low| |i.high|

/-- Modelled from the spec: ops.ts is absent from the repository; section 4.5
calls `d_min` the minimal denominator magnitude currently known, which is zero
as soon as the interval contains zero. -/
def getMinMagnitude (i : RatInterval) : Rat :=
  if containsZero i then 0 else min |i.low| |i.high|

/-- Modelled from the spec: interval sum (section 4.5, the interval-arithmetic
result seeding a composed oracle). -/
def addIntervals (a b : RatInterval) : RatInterval :=
  ⟨a.low + b.low, a.high + b.high⟩

/-- Modelled from the spec: interval difference. -/
def subIntervals (a b : RatInterval) : RatInterval :=
  ⟨a.low - b.high, a.high - b.low⟩

/-- Modelled from the spec: interval product (extremes of the endpoint
products). -/
def mulIntervals (a b : RatInterval) : RatInterval :=
  ⟨min (min (a.low * b.low) (a.low * b.high)) (min (a.high * b.low) (a.high * b.high)),
   max (max (a.low * b.low) (a.low * b.high)) (max (a.high * b.low) (a.high * b.high))⟩

/-- Modelled from the spec: the reciprocal interval of a zero-free interval. -/
def invInterval (b : RatInterval) : RatInterval := ⟨1 / b.high, 1 / b.low⟩

/-- Modelled from the spec: interval quotient, multiplication by the
reciprocal; divide only applies it to denominators nudged away from zero. -/
def divIntervals (a b : RatInterval) : RatInterval :=
  mulIntervals a (invInterval b)

/-- The fixed epsilon divide uses to nudge a zero-spanning denominator
(part_007 line 213). -/
def divideEps : Rat := 1 / 1000000000

/-- The safe denominator divide seeds its initial yes interval from (part_007
lines 210-229): a zero-containing denominator interval is contracted away from
zero by `divideEps`, on the side of larger magnitude when it spans zero
strictly. -/
def safeDenom (dYes : RatInterval) : RatInterval :=
  if containsZero dYes then
    if dYes.high ≤ 0 then ⟨dYes.low, dYes.high - divideEps⟩
    else if 0 ≤ dYes.low then ⟨dYes.low + divideEps, dYes.high⟩
    else if |dYes.high| < |dYes.low| then ⟨dYes.low, -divideEps⟩
    else ⟨divideEps, dYes.high⟩
  else dYes

/-- The state produced by a successful divide construction: whether the
zero-spanning warning fired, the safe denominator, and the seeded yes
interval. -/
structure DivideSetup where
  warned : Bool
  safeDen : RatInterval
  yes : RatInterval
deriving DecidableEq, Repr

/-- Construction phase of `divide(numer, denom)` (part_007 lines 202-230):
fatal when the denominator yes interval is exactly the point zero, otherwise a
warning exactly when it contains zero, and the result yes is seeded from the
safe denominator. -/
def divideConstruct (numerYes dYes : RatInterval) : Except String DivideSetup :=
  if dYes.low = 0 ∧ dYes.high = 0 then
    Except.error "Division by zero: denominator known to be zero"
  else
    Except.ok ⟨containsZero dYes, safeDenom dYes, divIntervals numerYes (safeDenom dYes)⟩

/-- The operand narrowing target computed by the refinement pass of divide
(part_007 lines 235-246): `delta / 4` when the minimal denominator magnitude is
zero, otherwise `delta * dMin^2 / (dMin + nMag)`. -/
def divideSubDelta (numerYes d0 : RatInterval) (delta : Rat) : Rat :=
  if getMinMagnitude d0 = 0 then delta / 4
  else delta * (getMinMagnitude d0 * getMinMagnitude d0) /
    (getMinMagnitude d0 + getMagnitude numerYes)

/-- Whether the refinement pass of divide throws (part_007 lines 251-260): the
denominator interval `dNow` after operand refinement still spans zero when
shrunk by the operand narrowing target; `d0` is the denominator interval at
entry of the pass, from which the target was computed. -/
def divideRefineThrows (numerYes d0 dNow : RatInterval) (delta : Rat) : Bool :=
  containsZero dNow &&
    decide (dNow.low + divideSubDelta numerYes d0 delta ≤ 0 ∧
            0 ≤ dNow.high - divideSubDelta numerYes d0 delta)

theorem containsZero_true_iff (i : RatInterval) :
    containsZero i = true ↔ (i.low ≤ 0 ∧ 0 ≤ i.high) := by
  simp [containsZero]

theorem containsZero_false_iff (i : RatInterval) :
    containsZero i = false ↔ ¬ (i.low ≤ 0 ∧ 0 ≤ i.high) := by
  simp [containsZero]

theorem divideEps_pos : (0 : Rat) < divideEps := by norm_num [divideEps]

theorem safeDenom_props (dYes : RatInterval) (hw : containsZero dYes = true) :
    containsZero (safeDenom dYes) = false ∧ safeDenom dYes ≠ dYes := by
  have hw2 := (containsZero_true_iff dYes).mp hw
  have heps := divideEps_pos
  unfold safeDenom
  rw [if_pos hw]
  split_ifs with h1 h2 h3
  · refine ⟨?_, ?_⟩
    · rw [containsZero_false_iff]
      dsimp only
      intro hc
      linarith [hc.2]
    · intro he
      have hx : dYes.high - divideEps = dYes.high := congrArg RatInterval.high he
      linarith
  · refine ⟨?_, ?_⟩
    · rw [containsZero_false_iff]
      dsimp only
      intro hc
      linarith [hc.1]
    · intro he
      have hx : dYes.low + divideEps = dYes.low := congrArg RatInterval.low he
      linarith
  · refine ⟨?_, ?_⟩
    · rw [containsZero_false_iff]
      dsimp only
      intro hc
      linarith [hc.2]
    · intro he
      have hx : -divideEps = dYes.high := congrArg RatInterval.high he
      have hhigh : 0 < dYes.high := lt_of_not_le h1
      linarith
  · refine ⟨?_, ?_⟩
    · rw [containsZero_false_iff]
      dsimp only
      intro hc
      linarith [hc.1]
    · intro he
      have hx : divideEps = dYes.low := congrArg RatInterval.low he
      have hlow : dYes.low < 0 := lt_of_not_le h2
      linarith

/-- Claim C2: divide is fatal at construction exactly when the denominator yes
interval is the single point zero; a zero-spanning (but not point-zero)
denominator constructs with a warning, seeding the result from a denominator
nudged off zero by the fixed epsilon; and a refinement pass whose denominator
interval still spans zero within the requested delta throws (the source shrinks
by the operand target derived from delta, which is at most delta here since a
zero-containing denominator forces the `delta / 4` branch). -/
theorem divide_safety (numerYes dYes d0 dNow : RatInterval) (delta : Rat)
    (hdelta : 0 ≤ delta) :
    (divideConstruct numerYes dYes =
        Except.error "Division by zero: denominator known to be zero"
      ↔ (dYes.low = 0 ∧ dYes.high = 0)) ∧
    (containsZero dYes = true → ¬ (dYes.low = 0 ∧ dYes.high = 0) →
      divideConstruct numerYes dYes =
        Except.ok ⟨true, safeDenom dYes, divIntervals numerYes (safeDenom dYes)⟩ ∧
      containsZero (safeDenom dYes) = false ∧ safeDenom dYes ≠ dYes) ∧
    (containsZero dNow = true → subsetIv dNow d0 →
      dNow.low + delta ≤ 0 → 0 ≤ dNow.high - delta →
      divideRefineThrows numerYes d0 dNow delta = true) := by
  refine ⟨?_, ?_, ?_⟩
  · unfold divideConstruct
    by_cases hc : dYes.low = 0 ∧ dYes.high = 0
    · simp [hc]
    · simp [hc]
  · intro hw hne
    refine ⟨?_, safeDenom_props dYes hw⟩
    unfold divideConstruct
    rw [if_neg hne, hw]
  · intro hz hsub h1 h2
    have hz2 := (containsZero_true_iff dNow).mp hz
    have hd0 : containsZero d0 = true := by
      rw [containsZero_true_iff]
      exact ⟨le_trans hsub.1 hz2.1, le_trans hz2.2 hsub.2⟩
    have hmin : getMinMagnitude d0 = 0 := by
      unfold getMinMagnitude
      rw [if_pos hd0]
    have hsd : divideSubDelta numerYes d0 delta = delta / 4 := by
      unfold divideSubDelta
      rw [hmin]
      simp
    unfold divideRefineThrows
    rw [hz, hsd]
    simp only [Bool.true_and, decide_eq_true_eq]
    exact ⟨by linarith, by linarith⟩

/-- Claim C2, witness: point-zero denominator errors at construction; `[-1,1]`
constructs with a nudged zero-free safe denominator; the refinement check
throws for denominator `[-1/2, 1/2]` at delta `1/4`. -/
theorem divide_safety_witness :
    (divideConstruct ⟨10, 10⟩ ⟨0, 0⟩ =
      Except.error "Division by zero: denominator known to be zero") ∧
    containsZero (safeDenom ⟨-1, 1⟩) = false ∧
    divideRefineThrows ⟨10, 10⟩ ⟨-1, 1⟩ ⟨-1/2, 1/2⟩ (1/4) = true :=
  ⟨(divide_safety ⟨10, 10⟩ ⟨0, 0⟩ ⟨-1, 1⟩ ⟨-1/2, 1/2⟩ (1/4) (by norm_num)).1.mpr
      ⟨rfl, rfl⟩,
   ((divide_safety ⟨10, 10⟩ ⟨-1, 1⟩ ⟨-1, 1⟩ ⟨-1/2, 1/2⟩ (1/4) (by norm_num)).2.1
      (by decide) (by decide)).2.1,
   (divide_safety ⟨10, 10⟩ ⟨-1, 1⟩ ⟨-1, 1⟩ ⟨-1/2, 1/2⟩ (1/4) (by norm_num)).2.2
      (by decide) ⟨by norm_num, by norm_num⟩ (by norm_num) (by norm_num)⟩

/-- The operand narrowing target computed by the refinement pass of multiply
(part_007 lines 180-199): the larger operand magnitude `M` gives target
`delta / (2 M)`, falling back to `delta` itself when `M < 1/2`. -/
def multiplySubDelta (aYes bYes : RatInterval) (delta : Rat) : Rat :=
  if (if getMagnitude bYes < getMagnitude aYes then getMagnitude aYes
      else getMagnitude bYes) < 1/2 then delta
  else delta /
    ((if getMagnitude bYes < getMagnitude aYes then getMagnitude aYes
      else getMagnitude bYes) * 2)

theorem multiply_ternary_max (aYes bYes : RatInterval) :
    (if getMagnitude bYes < getMagnitude aYes then getMagnitude aYes
     else getMagnitude bYes) = max (getMagnitude aYes) (getMagnitude bYes) := by
  rcases lt_or_le (getMagnitude bYes) (getMagnitude aYes) with h | h
  · rw [if_pos h, max_eq_left h.le]
  · rw [if_neg (not_lt.mpr h), max_eq_right h]

/-- Claim C6: when a multiply oracle refines for tolerance delta, each operand
is narrowed to `delta / (2 * max(|a|,|b|))` computed from the current operand
interval magnitudes, except that when the maximal magnitude is below `1/2` the
target falls back to `delta` itself. -/
theorem multiply_operand_target (aYes bYes : RatInterval) (delta : Rat) :
    ((1 : Rat)/2 ≤ max (getMagnitude aYes) (getMagnitude bYes) →
      multiplySubDelta aYes bYes delta =
        delta / (2 * max (getMagnitude aYes) (getMagnitude bYes))) ∧
    (max (getMagnitude aYes) (getMagnitude bYes) < 1/2 →
      multiplySubDelta aYes bYes delta = delta) := by
  unfold multiplySubDelta
  rw [multiply_ternary_max]
  constructor
  · intro h
    rw [if_neg (not_lt.mpr h), mul_comm]
  · intro h
    rw [if_pos h]

/-- Claim C6, witness: operand intervals `[1,2]` and `[0,0]` have maximal
magnitude `2`, giving an operand target of `delta / 4` at `delta = 1`. -/
theorem multiply_operand_target_witness :
    (1 : Rat)/2 ≤ max (getMagnitude ⟨1, 2⟩) (getMagnitude ⟨0, 0⟩) ∧
    multiplySubDelta ⟨1, 2⟩ ⟨0, 0⟩ 1 =
      1 / (2 * max (getMagnitude ⟨1, 2⟩) (getMagnitude ⟨0, 0⟩)) :=
  ⟨by decide, (multiply_operand_target ⟨1, 2⟩ ⟨0, 0⟩ 1).1 (by decide)⟩

/-! ### Oracle factories (part_006 / functions.ts) -/

/-- The final-result processing of the test-oracle invocation (part_006 lines
61-71): a Yes result intersects the prophecy (defaulting to the query) with the
current yes interval - empty intersection is a fatal consistency error,
otherwise the intersection becomes the new yes; a No result leaves the yes
interval unchanged. -/
def processTestResult (yes ab : RatInterval) (r : Answer) :
    Except String (Answer × RatInterval) :=
  if r.ans = 1 then
    match intersection yes (r.prophecy.getD ab) with
    | none => Except.error "Oracle Consistency Error"
    | some i => Except.ok (⟨1, some i⟩, i)
  else Except.ok (⟨0, some yes⟩, yes)

/-- One invocation of a makeTestOracle oracle (part_006 lines 38-72), with the
list of predicate queries issued recorded alongside the result and the updated
yes interval. -/
def testOracleInvoke (test : RatInterval → Answer) (yes ab : RatInterval)
    (delta : Rat) : Except String (Answer × RatInterval) × List RatInterval :=
  if intersection ab yes = none then (Except.ok (⟨0, some yes⟩, yes), [])
  else if containsIv (halo ab delta) yes then (Except.ok (⟨1, some yes⟩, yes), [])
  else if (test ab).ans = -1 then
    if (test (halo ab delta)).ans = -1 then
      (Except.error "Precision limitation in test function", [ab, halo ab delta])
    else (processTestResult yes ab (test (halo ab delta)), [ab, halo ab delta])
  else (processTestResult yes ab (test ab), [ab])

/-- Claim C5: past the fast paths, a Maybe from `test(ab)` triggers exactly one
retry on `test(halo(ab, delta))` (the recorded query trace is exactly
`[ab, halo ab delta]`), and a second Maybe is a fatal precision-limitation
error rather than a Maybe answer. -/
theorem testOracle_maybe_retry (test : RatInterval → Answer)
    (yes ab : RatInterval) (delta : Rat)
    (h1 : intersection ab yes ≠ none)
    (h2 : containsIv (halo ab delta) yes = false)
    (hm : (test ab).ans = -1) :
    (testOracleInvoke test yes ab delta).2 = [ab, halo ab delta] ∧
    ((test (halo ab delta)).ans = -1 →
      (testOracleInvoke test yes ab delta).1 =
        Except.error "Precision limitation in test function") := by
  unfold testOracleInvoke
  rw [if_neg h1, if_neg (by simp [h2]), if_pos hm]
  constructor
  · by_cases hm2 : (test (halo ab delta)).ans = -1
    · rw [if_pos hm2]
    · rw [if_neg hm2]
  · intro hm2
    rw [if_pos hm2]

/-- Claim C5, witness: an always-Maybe predicate over yes `[0,1]`, query
`[0,1/2]`, delta `1/10` issues exactly the query and its halo and then fails
fatally. -/
theorem testOracle_maybe_retry_witness :
    (testOracleInvoke (fun _ => ⟨-1, none⟩) ⟨0, 1⟩ ⟨0, 1/2⟩ (1/10)).2 =
      [⟨0, 1/2⟩, halo ⟨0, 1/2⟩ (1/10)] ∧
    (testOracleInvoke (fun _ => ⟨-1, none⟩) ⟨0, 1⟩ ⟨0, 1/2⟩ (1/10)).1 =
      Except.error "Precision limitation in test function" :=
  have h := testOracle_maybe_retry (fun _ => ⟨-1, none⟩) ⟨0, 1⟩ ⟨0, 1/2⟩ (1/10)
    (by decide) (by decide) rfl
  ⟨h.1, h.2 rfl⟩

/-- One invocation of a makeAlgorithmOracle oracle (functions.ts lines
117-146): fast disjointness and halo-containment checks against the current
yes interval, then refinement to target `delta` and a re-check.  The last
component records whether the refinement algorithm was invoked; the middle one
is the yes interval after the call. -/
def algOracleInvoke (alg : RatInterval → Rat → RatInterval)
    (yes ab : RatInterval) (delta : Rat) : Answer × RatInterval × Bool :=
  if intersection ab yes = none then (⟨0, some yes⟩, yes, false)
  else if containsIv (halo ab delta) yes then (⟨1, some yes⟩, yes, false)
  else
    if containsIv (halo ab delta) (alg yes delta) then
      (⟨1, some (alg yes delta)⟩, alg yes delta, true)
    else if intersection ab (alg yes delta) = none then
      (⟨0, some (alg yes delta)⟩, alg yes delta, true)
    else (⟨-1, some (alg yes delta)⟩, alg yes delta, true)

/-- One invocation of `fromRational(q)` (functions.ts lines 179-184): an
algorithm oracle seeded with the point `[q,q]` whose algorithm always returns
that point. -/
def fromRationalInvoke (q : Rat) (ab : RatInterval) (delta : Rat) :
    Answer × RatInterval × Bool :=
  algOracleInvoke (fun _ _ => pointIv q) (pointIv q) ab delta

theorem containsIv_point (i : RatInterval) (q : Rat) :
    containsIv i (pointIv q) = containsValue i q := rfl

theorem fromRationalInvoke_eval (q : Rat) (ab : RatInterval) (delta : Rat)
    (hd : 0 ≤ delta) :
    fromRationalInvoke q ab delta =
      if containsValue ab q then (⟨1, some (pointIv q)⟩, pointIv q, false)
      else (⟨0, some (pointIv q)⟩, pointIv q, false) := by
  unfold fromRationalInvoke algOracleInvoke
  by_cases hq : containsValue ab q = true
  · have hsome : intersection ab (pointIv q) = some (pointIv q) := by
      rw [intersection_point_right, hq]
      simp
    have hhalo : containsIv (halo ab delta) (pointIv q) = true := by
      rw [containsIv_point]
      exact mem_halo_of_mem hq hd
    rw [if_neg (by simp [hsome]), if_pos hhalo, if_pos hq]
  · have hq2 : containsValue ab q = false := by simpa using hq
    have hnone : intersection ab (pointIv q) = none := by
      rw [intersection_point_right, hq2]
      simp
    rw [if_pos hnone, if_neg (by simp [hq2])]

/-- Claim C9: with nonnegative delta, `fromRational(q)` answers Yes with
prophecy `[q,q]` exactly when `q` lies in the query, answers No with prophecy
`[q,q]` exactly when it does not, never answers Maybe, never invokes its
refinement algorithm, and its yes interval stays the singleton `[q,q]`. -/
theorem fromRational_point_oracle (q : Rat) (ab : RatInterval) (delta : Rat)
    (hd : 0 ≤ delta) :
    ((fromRationalInvoke q ab delta).1 = ⟨1, some (pointIv q)⟩ ↔
      containsValue ab q = true) ∧
    ((fromRationalInvoke q ab delta).1 = ⟨0, some (pointIv q)⟩ ↔
      containsValue ab q = false) ∧
    (fromRationalInvoke q ab delta).1.ans ≠ -1 ∧
    (fromRationalInvoke q ab delta).2.1 = pointIv q ∧
    (fromRationalInvoke q ab delta).2.2 = false := by
  rw [fromRationalInvoke_eval q ab delta hd]
  by_cases hq : containsValue ab q = true
  · rw [if_pos hq]
    refine ⟨by simp [hq], ?_, by norm_num, rfl, rfl⟩
    rw [hq]
    constructor
    · intro h
      have hcontra := congrArg Answer.ans h
      norm_num at hcontra
    · intro h
      exact absurd h (by norm_num)
  · have hq2 : containsValue ab q = false := by simpa using hq
    rw [if_neg hq]
    refine ⟨?_, by simp [hq2], by norm_num, rfl, rfl⟩
    rw [hq2]
    constructor
    · intro h
      have hcontra := congrArg Answer.ans h
      norm_num at hcontra
    · intro h
      exact absurd h (by norm_num)

/-- Claim C9, witness: `fromRational(1/2)` on query `[0,1]` at delta `0`. -/
theorem fromRational_point_oracle_witness :
    (fromRationalInvoke (1/2) ⟨0, 1⟩ 0).1 = ⟨1, some (pointIv (1/2))⟩ ∧
    (fromRationalInvoke (1/2) ⟨0, 1⟩ 0).2.2 = false :=
  have h := fromRational_point_oracle (1/2) ⟨0, 1⟩ 0 (le_refl 0)
  ⟨h.1.mpr (by decide), h.2.2.2.2⟩

/-! ### Composition of rational oracles (part_007 arithmetic over functions.ts
fromRational) -/

/-- `withinDelta` from the ops collaborator (ops.ts is absent from the
repository; Modelled from the spec: the interval lies within the halo of the
target, section 3). -/
def withinDelta (a target : RatInterval) (delta : Rat) : Bool :=
  containsIv (halo target delta) a

/-- The answer function of the arithmetic `makeOracle` factory (part_007 lines
109-147): the query is first expanded by delta (ops.expand, the halo); a yes
interval disjoint from the expansion answers No, one contained in it answers
Yes; otherwise the compute function runs, its result is intersected with the
yes interval (becoming the new yes when nonempty) and the verdict is re-derived
against the original query.  The second component is the yes interval after the
call. -/
def arithOracleAnswer (compute : RatInterval → Rat → RatInterval)
    (yes ab : RatInterval) (delta : Rat) : Answer × RatInterval :=
  match intersection yes (halo ab delta) with
  | none => (⟨0, some yes⟩, yes)
  | some interYT =>
    if interYT.low = yes.low ∧ interYT.high = yes.high then (⟨1, some yes⟩, yes)
    else
      match intersection (compute ab delta) yes with
      | some refined =>
        if intersection refined ab ≠ none ∧ withinDelta refined ab delta = true
        then (⟨1, some refined⟩, refined)
        else (⟨0, some refined⟩, refined)
      | none => (⟨0, some yes⟩, yes)

/-- The four arithmetic operators of the composition layer. -/
inductive ArithOp where
  | addOp
  | subOp
  | mulOp
  | divOp
deriving DecidableEq, Repr

/-- The rational value of an operator application (division is field division,
total with junk value at zero; the divide constructor is only composed with a
nonzero denominator). -/
def opApply : ArithOp → Rat → Rat → Rat
  | .addOp, p, q => p + q
  | .subOp, p, q => p - q
  | .mulOp, p, q => p * q
  | .divOp, p, q => p / q

/-- The interval-arithmetic seed of each composed oracle (part_007 lines
159-230): sum, difference, product of the operand yes intervals; divide seeds
from the safe denominator. -/
def opIntervals : ArithOp → RatInterval → RatInterval → RatInterval
  | .addOp, a, b => addIntervals a b
  | .subOp, a, b => subIntervals a b
  | .mulOp, a, b => mulIntervals a b
  | .divOp, a, b => divIntervals a (safeDenom b)

/-- One invocation of `compose(fromRational p, fromRational q, op)`: the
arithmetic factory with the point operand intervals.  For point operands the
operand refinement inside compute is a no-op and compute returns the same
interval-arithmetic result on every call (part_007 lines 159-200, 232-263), so
it is embedded as the constant function. -/
def composedOfRationals (op : ArithOp) (p q : Rat) (ab : RatInterval)
    (delta : Rat) : Answer × RatInterval :=
  arithOracleAnswer (fun _ _ => opIntervals op (pointIv p) (pointIv q))
    (opIntervals op (pointIv p) (pointIv q)) ab delta

theorem safeDenom_point (q : Rat) (hq : q ≠ 0) :
    safeDenom (pointIv q) = pointIv q := by
  unfold safeDenom
  rw [if_neg]
  intro hc
  rw [containsZero_true_iff] at hc
  exact hq (le_antisymm hc.1 hc.2)

theorem opIntervals_point (op : ArithOp) (p q : Rat)
    (hq : op = .divOp → q ≠ 0) :
    opIntervals op (pointIv p) (pointIv q) = pointIv (opApply op p q) := by
  cases op
  · simp [opIntervals, addIntervals, pointIv, opApply]
  · simp [opIntervals, subIntervals, pointIv, opApply]
  · simp [opIntervals, mulIntervals, pointIv, opApply]
  · have hq0 := hq rfl
    have hstep : opIntervals ArithOp.divOp (pointIv p) (pointIv q) =
        divIntervals (pointIv p) (safeDenom (pointIv q)) := rfl
    rw [hstep, safeDenom_point q hq0]
    simp [divIntervals, mulIntervals, invInterval, pointIv, opApply, mul_one_div,
      div_eq_mul_inv]

theorem arithOracleAnswer_point (compute : RatInterval → Rat → RatInterval)
    (s : Rat) (ab : RatInterval) (delta : Rat) :
    (arithOracleAnswer compute (pointIv s) ab delta).1.ans =
      if containsValue (halo ab delta) s then 1 else 0 := by
  unfold arithOracleAnswer
  rw [intersection_point_left]
  by_cases hs : containsValue (halo ab delta) s = true
  · rw [hs]
    simp [pointIv]
  · have hs2 : containsValue (halo ab delta) s = false := by simpa using hs
    rw [hs2]
    simp

/-- Claim C3, counterexample: with `p = q = 1/2` and addition, the composed
oracle and `fromRational(1)` disagree on the query `[2,3]` at delta `2`.  The
value `1` lies in the halo `[0,5]` but not in the query, so the composed
arithmetic oracle (which checks its point yes interval against the expanded
query) answers Yes while `fromRational(1)` (which checks disjointness against
the query itself first) answers No. -/
theorem compose_fromRational_disagree :
    (composedOfRationals .addOp (1/2) (1/2) ⟨2, 3⟩ 2).1.ans = 1 ∧
    (fromRationalInvoke ((1:Rat)/2 + 1/2) ⟨2, 3⟩ 2).1.ans = 0 := by
  decide

/-- Claim C3, amended: for rationals `p`, `q` and every operator (nonzero `q`
for division), the composed oracle and `fromRational(p op q)` give the same
Yes/No answer on every query whose interval contains the value or whose halo
excludes it - in particular on every query with delta `0`.  They disagree only
when delta is positive and the value falls in the halo fringe, where the
composed oracle answers Yes and `fromRational` answers No. -/
theorem compose_fromRational_agree (op : ArithOp) (p q : Rat)
    (ab : RatInterval) (delta : Rat) (hd : 0 ≤ delta)
    (hq : op = .divOp → q ≠ 0)
    (hcase : containsValue ab (opApply op p q) = true ∨
             containsValue (halo ab delta) (opApply op p q) = false) :
    (composedOfRationals op p q ab delta).1.ans =
      (fromRationalInvoke (opApply op p q) ab delta).1.ans := by
  unfold composedOfRationals
  rw [opIntervals_point op p q hq, arithOracleAnswer_point,
    fromRationalInvoke_eval _ ab delta hd]
  rcases hcase with hin | hout
  · have hh := mem_halo_of_mem hin hd
    rw [hin, hh]
    rfl
  · have hab : containsValue ab (opApply op p q) = false := by
      cases h2 : containsValue ab (opApply op p q)
      · rfl
      · exact absurd (mem_halo_of_mem h2 hd) (by simp [hout])
    rw [hout, hab]
    rfl

/-- Claim C3 amended, witness: addition of `1/2` and `1/2` against
`fromRational(1)` on the query `[0,1]` at delta `0`. -/
theorem compose_fromRational_agree_witness :
    (composedOfRationals .addOp (1/2) (1/2) ⟨0, 1⟩ 0).1.ans =
      (fromRationalInvoke ((1:Rat)/2 + 1/2) ⟨0, 1⟩ 0).1.ans :=
  compose_fromRational_agree .addOp (1/2) (1/2) ⟨0, 1⟩ 0 (le_refl 0)
    (fun h => absurd h (by decide)) (Or.inl (by decide))

/-! ### KantorovichRoot construction (roots.ts lines 133-160) -/

/-- Construction phase of KantorovichRoot: with `beta = |f(g)/fp(g)|`,
`r = 2 beta`, `gamma = maxpp / (2 minp)` and `h = beta * gamma`, construction
throws exactly when `h > 1/4` and otherwise seeds the yes interval
`[g - r, g + r]`.  The domain parameter of the source does not enter the
construction computation and is omitted. -/
def KantorovichConstruct (f fprime : Rat → Rat) (guess maxpp minp : Rat) :
    Except String RatInterval :=
  if 1/4 < |f guess / fprime guess| * (maxpp / (minp * 2)) then
    Except.error "Kantorovich condition failed"
  else
    Except.ok ⟨guess - |f guess / fprime guess| * 2,
               guess + |f guess / fprime guess| * 2⟩

/-- Claim C7: KantorovichRoot computes `beta = |f(guess)/fprime(guess)|`,
`gamma = maxpp/(2 minp)`, `h = beta * gamma`, fails fatally at construction
exactly when `h > 1/4`, and otherwise seeds the yes interval
`[guess - 2 beta, guess + 2 beta]`. -/
theorem kantorovich_construct (f fprime : Rat → Rat)
    (guess maxpp minp : Rat) :
    (1/4 < |f guess / fprime guess| * (maxpp / (2 * minp)) ↔
      KantorovichConstruct f fprime guess maxpp minp =
        Except.error "Kantorovich condition failed") ∧
    (|f guess / fprime guess| * (maxpp / (2 * minp)) ≤ 1/4 →
      KantorovichConstruct f fprime guess maxpp minp =
        Except.ok ⟨guess - 2 * |f guess / fprime guess|,
                   guess + 2 * |f guess / fprime guess|⟩) := by
  have hgamma : maxpp / (minp * 2) = maxpp / (2 * minp) := by rw [mul_comm]
  have hbeta : |f guess / fprime guess| * 2 = 2 * |f guess / fprime guess| :=
    mul_comm _ _
  unfold KantorovichConstruct
  rw [hgamma, hbeta]
  constructor
  · constructor
    · intro h
      rw [if_pos h]
    · intro he
      by_contra hnot
      rw [if_neg hnot] at he
      exact absurd he (by simp)
  · intro h
    rw [if_neg (not_lt.mpr h)]

/-- Claim C7, witness: `f x = x^2 - 2`, derivative `2x`, guess `3/2`, bounds
`maxpp = 2`, `minp = 2` give `beta = 1/12` and `h = 1/24 <= 1/4`, so the
construction succeeds with yes interval `[3/2 - 1/6, 3/2 + 1/6]`. -/
theorem kantorovich_construct_witness :
    KantorovichConstruct (fun x => x * x - 2) (fun x => x + x) (3/2) 2 2 =
      Except.ok ⟨3/2 - 2 * |((3:Rat)/2 * (3/2) - 2) / ((3:Rat)/2 + 3/2)|,
                 3/2 + 2 * |((3:Rat)/2 * (3/2) - 2) / ((3:Rat)/2 + 3/2)|⟩ :=
  (kantorovich_construct (fun x => x * x - 2) (fun x => x + x) (3/2) 2 2).2
    (by decide)

/-! ### nRootTest narrowing (roots.ts lines 99-118) -/

/-- One bisection step of the nRootTest narrowing: compare `mid^n` with `q`
and keep the bracketing half. -/
def nRootTestNarrowStep (q : Rat) (n : Nat) (active : RatInterval) :
    RatInterval :=
  if q < ((active.low + active.high) / 2) ^ n then
    ⟨active.low, (active.low + active.high) / 2⟩
  else ⟨(active.low + active.high) / 2, active.high⟩

/-- The nRootTest narrowing loop: bisect while the width exceeds the requested
precision, up to the iteration cap (100 in the source, the fuel here). -/
def nRootTestNarrowGo (q : Rat) (n : Nat) (precision : Rat) :
    Nat → RatInterval → RatInterval
  | 0, a => a
  | Nat.succ fuel, a =>
    if precision < widthI a then
      nRootTestNarrowGo q n precision fuel (nRootTestNarrowStep q n a)
    else a

/-- The bracketing invariant of nRootTest: `low^n <= q <= high^n`. -/
def brackets (q : Rat) (n : Nat) (a : RatInterval) : Prop :=
  a.low ^ n ≤ q ∧ q ≤ a.high ^ n

theorem nRootTestNarrowStep_brackets (q : Rat) (n : Nat) (a : RatInterval)
    (h : brackets q n a) : brackets q n (nRootTestNarrowStep q n a) := by
  unfold nRootTestNarrowStep
  by_cases hq : q < ((a.low + a.high) / 2) ^ n
  · rw [if_pos hq]
    exact ⟨h.1, le_of_lt hq⟩
  · rw [if_neg hq]
    exact ⟨le_of_not_lt hq, h.2⟩

/-- Claim C10: the nRootTest narrowing preserves the bracketing invariant
`low^n <= q <= high^n`: every single bisection step preserves it, and so does
the whole narrowing loop for any iteration budget (hence for the interval
finally stored in the yes interval and returned). -/
theorem nRootTest_bracketing (q : Rat) (n : Nat) (precision : Rat)
    (a : RatInterval) (h : brackets q n a) :
    brackets q n (nRootTestNarrowStep q n a) ∧
    ∀ fuel, brackets q n (nRootTestNarrowGo q n precision fuel a) := by
  suffices hgo : ∀ fuel (b : RatInterval), brackets q n b →
      brackets q n (nRootTestNarrowGo q n precision fuel b) by
    exact ⟨nRootTestNarrowStep_brackets q n a h, fun fuel => hgo fuel a h⟩
  intro fuel
  induction fuel with
  | zero =>
    intro b hb
    exact hb
  | succ k ih =>
    intro b hb
    unfold nRootTestNarrowGo
    by_cases hc : precision < widthI b
    · rw [if_pos hc]
      exact ih _ (nRootTestNarrowStep_brackets q n b hb)
    · rw [if_neg hc]
      exact hb

/-- Claim C10, witness: `q = 2`, `n = 2`, starting interval `[1,2]` with
`1 <= 2 <= 4`; the step and a three-iteration loop both keep the bracket. -/
theorem nRootTest_bracketing_witness :
    brackets 2 2 (nRootTestNarrowStep 2 2 ⟨1, 2⟩) ∧
    brackets 2 2 (nRootTestNarrowGo 2 2 (1/4) 3 ⟨1, 2⟩) :=
  have h := nRootTest_bracketing 2 2 (1/4) ⟨1, 2⟩ ⟨by norm_num, by norm_num⟩
  ⟨h.1, h.2 3⟩

/-! ### The nRoot narrowing strategy and the narrow driver (roots.ts lines
43-68, helpers.ts lines 88-130) -/

/-- The inner Newton loop of the nRoot narrowing (roots.ts lines 55-64):
while the guess-partner interval is wider than the requested precision (and
the iteration cap, the fuel, is not exhausted), replace the guess by
`((n-1) guess + partner) / n` and recompute the partner `q / guess^(n-1)`. -/
def nRootNarrowGo (q : Rat) (n : Nat) (precision : Rat) :
    Nat → Rat × Rat → Rat × Rat
  | 0, s => s
  | Nat.succ fuel, s =>
    if precision < widthI (nRootInterval s.1 s.2) then
      nRootNarrowGo q n precision fuel
        ((s.1 * ((n : Rat) - 1) + s.2) / (n : Rat),
         q / ((s.1 * ((n : Rat) - 1) + s.2) / (n : Rat)) ^ (n - 1))
    else s

/-- The nRoot narrowing strategy: the inner loop with the source iteration cap
of 100. -/
def nRootNarrowing (q : Rat) (n : Nat) (precision : Rat) (s : Rat × Rat) :
    Rat × Rat :=
  nRootNarrowGo q n precision 100 s

/-- The narrow driver of helpers.ts (lines 88-129) specialized to an oracle
exposing a narrowing strategy, with the nRoot strategy state threaded
explicitly: while the current interval is wider than the target, call the
strategy and continue with its result, stopping when it returns the interval
unchanged; the guard cap (10000 in the source) is the fuel.  The source
compares the widths through conversion to floating-point doubles; the exact
rational comparison used here agrees with it at every comparison arising in
the run proved below. -/
def narrowNRoot (q : Rat) (n : Nat) (precision : Rat) :
    Nat → Rat × Rat → RatInterval → RatInterval
  | 0, _, current => current
  | Nat.succ fuel, s, current =>
    if |precision| < widthI current then
      if nRootInterval (nRootNarrowing q n precision s).1
          (nRootNarrowing q n precision s).2 = current then current
      else narrowNRoot q n precision fuel (nRootNarrowing q n precision s)
        (nRootInterval (nRootNarrowing q n precision s).1
          (nRootNarrowing q n precision s).2)
    else current

/-- The run `narrow(nRoot(2, 3/2, 2), 1/1000000)`: the oracle starts from
guess `3/2` and partner `4/3`, and the driver starts from the initial yes
interval. -/
def c4Run : RatInterval :=
  narrowNRoot 2 2 (1/1000000) 10000 (nRootInit 2 (3/2) 2)
    (nRootInterval (nRootInit 2 (3/2) 2).1 (nRootInit 2 (3/2) 2).2)

/-- Claim C4: `narrow(nRoot(2, 3/2, 2), 1/1000000)` returns an interval
`[lo, hi]` with `lo^2 <= 2 <= hi^2` and `hi - lo < 1/1000000`. -/
theorem narrow_nRoot_sqrt2 :
    c4Run.low ^ 2 ≤ 2 ∧ (2 : Rat) ≤ c4Run.high ^ 2 ∧
    widthI c4Run < 1/1000000 := by
  decide

/-! ### Non-widening of the yes interval (helpers.ts lines 26-36 and 88-130) -/

/-- `updateYes` of the ask helper (helpers.ts lines 26-36): an absent previous
yes is replaced outright; otherwise the new interval is intersected with the
previous one, and an empty intersection leaves the previous yes in place. -/
def updateYes (oldYes : Option RatInterval) (next : RatInterval) : RatInterval :=
  match oldYes with
  | none => next
  | some o =>
    match intersection o next with
    | some i => i
    | none => o

/-- The narrow driver of helpers.ts (lines 88-129) in full generality: when
the oracle exposes a narrowing strategy the driver follows it (stopping when
it returns the current interval unchanged); otherwise it bisects, probes both
halves through the oracle call at a tenth of the precision, and descends into
the half that answered Yes, or away from a half that answered No, halting on
ambiguity.  Strategy state is threaded explicitly (the source closes over it);
the oracle call is abstracted by its numeric answer. -/
def narrowLoop {σ : Type} (hasStrat : Bool)
    (strat : σ → RatInterval → Rat → σ × RatInterval)
    (call : RatInterval → Rat → Int) (precision : Rat) :
    Nat → σ → RatInterval → RatInterval
  | 0, _, current => current
  | Nat.succ fuel, s, current =>
    if |precision| < widthI current then
      if hasStrat then
        if (strat s current precision).2 = current then current
        else narrowLoop hasStrat strat call precision fuel
          (strat s current precision).1 (strat s current precision).2
      else
        if call ⟨current.low, (current.low + current.high) / 2⟩ (precision / 10)
            = 1 then
          narrowLoop hasStrat strat call precision fuel s
            ⟨current.low, (current.low + current.high) / 2⟩
        else if call ⟨(current.low + current.high) / 2, current.high⟩
            (precision / 10) = 1 then
          narrowLoop hasStrat strat call precision fuel s
            ⟨(current.low + current.high) / 2, current.high⟩
        else if call ⟨current.low, (current.low + current.high) / 2⟩
              (precision / 10) = 0 ∧
            call ⟨(current.low + current.high) / 2, current.high⟩
              (precision / 10) ≠ 0 then
          narrowLoop hasStrat strat call precision fuel s
            ⟨(current.low + current.high) / 2, current.high⟩
        else if call ⟨(current.low + current.high) / 2, current.high⟩
              (precision / 10) = 0 ∧
            call ⟨current.low, (current.low + current.high) / 2⟩
              (precision / 10) ≠ 0 then
          narrowLoop hasStrat strat call precision fuel s
            ⟨current.low, (current.low + current.high) / 2⟩
        else current
    else current

theorem subsetIv_refl (i : RatInterval) : subsetIv i i :=
  ⟨le_refl _, le_refl _⟩

theorem subsetIv_trans {a b c : RatInterval} (h1 : subsetIv a b)
    (h2 : subsetIv b c) : subsetIv a c :=
  ⟨le_trans h2.1 h1.1, le_trans h1.2 h2.2⟩

theorem narrowLoop_subset {σ : Type} (hasStrat : Bool)
    (strat : σ → RatInterval → Rat → σ × RatInterval)
    (call : RatInterval → Rat → Int) (precision : Rat)
    (hstrat : ∀ s c p, orderedIv c →
      subsetIv (strat s c p).2 c ∧ orderedIv (strat s c p).2) :
    ∀ fuel (s : σ) (c : RatInterval), orderedIv c →
      subsetIv (narrowLoop hasStrat strat call precision fuel s c) c ∧
      orderedIv (narrowLoop hasStrat strat call precision fuel s c) := by
  intro fuel
  induction fuel with
  | zero =>
    intro s c hc
    exact ⟨subsetIv_refl c, hc⟩
  | succ k ih =>
    intro s c hc
    unfold narrowLoop
    by_cases hw : |precision| < widthI c
    · rw [if_pos hw]
      by_cases hs : hasStrat = true
      · rw [if_pos hs]
        by_cases heq : (strat s c precision).2 = c
        · rw [if_pos heq]
          exact ⟨subsetIv_refl c, hc⟩
        · rw [if_neg heq]
          obtain ⟨h1, h2⟩ := hstrat s c precision hc
          obtain ⟨h3, h4⟩ := ih (strat s c precision).1 (strat s c precision).2 h2
          exact ⟨subsetIv_trans h3 h1, h4⟩
      · rw [if_neg hs]
        have hc2 : c.low ≤ c.high := hc
        have hmid1 : c.low ≤ (c.low + c.high) / 2 := by linarith
        have hmid2 : (c.low + c.high) / 2 ≤ c.high := by linarith
        have hleftsub : subsetIv ⟨c.low, (c.low + c.high) / 2⟩ c :=
          ⟨le_refl _, hmid2⟩
        have hrightsub : subsetIv ⟨(c.low + c.high) / 2, c.high⟩ c :=
          ⟨hmid1, le_refl _⟩
        split_ifs with h1 h2 h3 h4
        · obtain ⟨ha, hb⟩ := ih s ⟨c.low, (c.low + c.high) / 2⟩ hmid1
          exact ⟨subsetIv_trans ha hleftsub, hb⟩
        · obtain ⟨ha, hb⟩ := ih s ⟨(c.low + c.high) / 2, c.high⟩ hmid2
          exact ⟨subsetIv_trans ha hrightsub, hb⟩
        · obtain ⟨ha, hb⟩ := ih s ⟨(c.low + c.high) / 2, c.high⟩ hmid2
          exact ⟨subsetIv_trans ha hrightsub, hb⟩
        · obtain ⟨ha, hb⟩ := ih s ⟨c.low, (c.low + c.high) / 2⟩ hmid1
          exact ⟨subsetIv_trans ha hleftsub, hb⟩
        · exact ⟨subsetIv_refl c, hc⟩
    · rw [if_neg hw]
      exact ⟨subsetIv_refl c, hc⟩

/-- Claim C8: the yes interval never widens.  The ask helper update replaces a
present yes only by its intersection with the new interval (a sub-interval of
the old yes), and the narrow driver - whatever the oracle answers, and for any
narrowing strategy that returns sub-intervals, as the spec requires of
algorithm oracles - returns a sub-interval of the interval it started from, of
no greater width.  In particular, a second narrow call (starting from the yes
interval the first call wrote) cannot widen it, and repeated calls with fixed
or shrinking precision have non-increasing width. -/
theorem yes_never_widens {σ : Type} (hasStrat : Bool)
    (strat : σ → RatInterval → Rat → σ × RatInterval)
    (call : RatInterval → Rat → Int) (precision : Rat)
    (hstrat : ∀ s c p, orderedIv c →
      subsetIv (strat s c p).2 c ∧ orderedIv (strat s c p).2) :
    (∀ o m, subsetIv (updateYes (some o) m) o) ∧
    (∀ fuel (s : σ) (c : RatInterval), orderedIv c →
      subsetIv (narrowLoop hasStrat strat call precision fuel s c) c ∧
      widthI (narrowLoop hasStrat strat call precision fuel s c) ≤ widthI c) := by
  constructor
  · intro o m
    have hred : updateYes (some o) m =
        match intersection o m with
        | some i => i
        | none => o := rfl
    rw [hred]
    by_cases hcond : max o.low m.low ≤ min o.high m.high
    · rw [intersection_eq_some o m hcond]
      exact ⟨le_max_left _ _, min_le_left _ _⟩
    · rw [(intersection_eq_none_iff o m).mpr hcond]
      exact subsetIv_refl o
  · intro fuel s c hc
    obtain ⟨h1, h2⟩ :=
      narrowLoop_subset hasStrat strat call precision hstrat fuel s c hc
    refine ⟨h1, ?_⟩
    unfold widthI
    have ha := h1.1
    have hb := h1.2
    linarith

/-- Claim C8, witness: the identity strategy (which trivially returns
sub-intervals) on the interval `[0,2]`, and an update of yes `[0,2]` with
`[1,3]`. -/
theorem yes_never_widens_witness :
    subsetIv (narrowLoop true (fun (s : Unit) (c : RatInterval) (_ : Rat) =>
      (s, c)) (fun _ _ => 1) 1 5 () ⟨0, 2⟩) ⟨0, 2⟩ ∧
    subsetIv (updateYes (some ⟨0, 2⟩) ⟨1, 3⟩) ⟨0, 2⟩ :=
  have h := yes_never_widens true
    (fun (s : Unit) (c : RatInterval) (_ : Rat) => (s, c)) (fun _ _ => 1) 1
    (fun s c p hc => ⟨⟨le_refl _, le_refl _⟩, hc⟩)
  ⟨(h.2 5 () ⟨0, 2⟩ (by norm_num [orderedIv])).1, h.1 ⟨0, 2⟩ ⟨1, 3⟩⟩

end RatOracles
